import Mathlib

/-!
Verification of the cactus terminal text editor (cactus.c) against its
natural-language specification.

The C source is embedded shallowly: C byte strings become `List Nat`
(one `Nat` per byte), C `int` fields that can go negative become `Int`,
non-negative counters become `Nat`, and the editor's mutable global state
`struct editorConfig E` becomes the record `EState` passed explicitly.
While-loops are embedded as structurally recursive functions over an
explicit fuel argument that is always supplied large enough (each loop
iteration advances its index by at least one, so `length + 1` fuel covers
a full scan); this keeps every definition kernel-executable.
-/

/-- CACTUS_TAB_STOP from cactus.c line 25. -/
def CACTUS_TAB_STOP : Nat := 8

/-- CACTUS_QUIT_TIMES from cactus.c line 26. -/
def CACTUS_QUIT_TIMES : Nat := 3

/-- Highlight classes, cactus.c `enum editorHighlight` (lines 44-53). -/
def HL_NORMAL : Nat := 0

def HL_COMMENT : Nat := 1

def HL_MULTI_LINE_COMMENT : Nat := 2

def HL_KEYWORDS : Nat := 3

def HL_COMMON_TYPES : Nat := 4

def HL_STRING : Nat := 5

def HL_NUMBER : Nat := 6

def HL_MATCH : Nat := 7

/-- Read byte `i` of a C string modelled as a `List Nat`; indices at or past
the end read the NUL terminator, i.e. `0` (the C arrays are NUL-terminated
and the scanners never read past the first NUL). -/
def getB (s : List Nat) (i : Nat) : Nat := s.getD i 0

/-- `memset(&a[s], v, n)` on a byte array: positions in `[s, s+n)` become `v`. -/
def setRange (l : List Nat) (s n v : Nat) : List Nat :=
  (List.range l.length).map (fun j => if s ≤ j ∧ j < s + n then v else l.getD j 0)

/-- `strncmp(&s[i], pat, pat.length) == 0` for a pattern with no NUL bytes:
every pattern byte matches the corresponding byte of `s` (with the virtual
NUL terminator past the end). -/
def matchAt (s : List Nat) (i : Nat) : List Nat → Bool
  | [] => true
  | p :: ps => getB s i == p && matchAt s (i + 1) ps

/-- is_seperator from cactus.c lines 273-276: whitespace, NUL, or one of
the sixteen punctuation bytes (comma, period, parens, plus, minus, slash,
star, equals, tilde, percent, angle brackets, square brackets, semicolon). -/
def is_seperator (c : Nat) : Bool :=
  (c == 32 || (9 ≤ c && c ≤ 13)) || c == 0 ||
    [44, 46, 40, 41, 43, 45, 47, 42, 61, 126, 37, 60, 62, 91, 93, 59].contains c

/-- `isdigit` on a byte. -/
def isdigitB (c : Nat) : Bool := 48 ≤ c && c ≤ 57

/-- struct editorSyntax (cactus.c lines 60-68): keyword list (a trailing `|`
byte marks a common type), single-line comment start, multi-line comment
start/end delimiters, and the highlight flags bitmask. -/
structure SynDef where
  keywords : List (List Nat)
  scs : List Nat
  mcs : List Nat
  mce : List Nat
  flags : Nat
deriving DecidableEq, Repr

/-- Byte string of an ASCII literal. -/
def strBytes (s : String) : List Nat := s.data.map Char.toNat

/-- The C-language entry of HLDB (cactus.c lines 103-121). -/
def C_syndef : SynDef where
  keywords :=
    [strBytes "switch", strBytes "if", strBytes "while", strBytes "for",
     strBytes "break", strBytes "continue", strBytes "return", strBytes "else",
     strBytes "struct", strBytes "union", strBytes "typedef", strBytes "static",
     strBytes "enum", strBytes "class", strBytes "case",
     strBytes "int|", strBytes "long|", strBytes "double|", strBytes "float|",
     strBytes "char|", strBytes "unsigned|", strBytes "signed|", strBytes "void|"]
  scs := strBytes "//"
  mcs := strBytes "/*"
  mce := strBytes "*/"
  flags := 3

/-- State carried by the `while (i < row->rsize)` scan of editorUpdateSyntax
(cactus.c lines 295-301): the highlight array being filled, the scan index,
`prevSep`, `in_string` (0 or the active quote byte) and `in_comment`. -/
structure ScanSt where
  hl : List Nat
  i : Nat
  prevSep : Bool
  inString : Nat
  inComment : Bool
deriving DecidableEq, Repr

/-- The keyword-matching inner loop of editorUpdateSyntax (lines 366-378):
returns the matched keyword's length (sans the `|` marker) and whether it is
a common type, for the first keyword matching at `i` whose following byte is
a separator. -/
def findKeyword (render : List Nat) (i : Nat) : List (List Nat) → Option (Nat × Bool)
  | [] => none
  | kw :: rest =>
    let ct : Bool := getB kw (kw.length - 1) == 124
    let kLen := if ct then kw.length - 1 else kw.length
    if matchAt render i (kw.take kLen) = true ∧ is_seperator (getB render (i + kLen)) = true
    then some (kLen, ct)
    else findKeyword render i rest

/-- The scanning loop of editorUpdateSyntax (cactus.c lines 301-387), one
fuel unit per iteration.  The C fall-through from the multi-line-comment
block (reached when `in_comment` or the open delimiter matches, lines
312-331) is expressed by conjoining that disjunction into the branch guard.
Every other branch mirrors the source line by line. -/
def scanLoop (syn : SynDef) (render : List Nat) : Nat → ScanSt → ScanSt
  | 0, st => st
  | fuel + 1, st =>
    if st.i < render.length then
      let c := getB render st.i
      let prev_hl := if st.i = 0 then HL_NORMAL else getB st.hl (st.i - 1)
      if 0 < syn.scs.length ∧ st.inString = 0 ∧ st.inComment = false ∧
          matchAt render st.i syn.scs = true then
        { st with hl := setRange st.hl st.i (render.length - st.i) HL_COMMENT }
      else if 0 < syn.mcs.length ∧ 0 < syn.mce.length ∧ st.inString = 0 ∧
          (st.inComment = true ∨ matchAt render st.i syn.mcs = true) then
        if st.inComment = true then
          let hl1 := setRange st.hl st.i 1 HL_MULTI_LINE_COMMENT
          if matchAt render st.i syn.mce = true then
            scanLoop syn render fuel
              { hl := setRange hl1 st.i syn.mce.length HL_MULTI_LINE_COMMENT,
                i := st.i + syn.mce.length, prevSep := true,
                inString := st.inString, inComment := false }
          else
            scanLoop syn render fuel { st with hl := hl1, i := st.i + 1 }
        else
          scanLoop syn render fuel
            { st with
              hl := setRange st.hl st.i syn.mcs.length HL_MULTI_LINE_COMMENT,
              i := st.i + syn.mcs.length, inComment := true }
      else if syn.flags.testBit 1 = true ∧ st.inString ≠ 0 then
        let hl1 := setRange st.hl st.i 1 HL_STRING
        if c = 92 ∧ st.i + 1 < render.length then
          scanLoop syn render fuel
            { st with hl := setRange hl1 (st.i + 1) 1 HL_STRING, i := st.i + 2 }
        else
          scanLoop syn render fuel
            { st with
              hl := hl1, i := st.i + 1, prevSep := true,
              inString := if c = st.inString then 0 else st.inString }
      else if syn.flags.testBit 1 = true ∧ (c = 34 ∨ c = 39) then
        scanLoop syn render fuel
          { st with hl := setRange st.hl st.i 1 HL_STRING, i := st.i + 1, inString := c }
      else if syn.flags.testBit 0 = true ∧
          ((isdigitB c = true ∧ (st.prevSep = true ∨ prev_hl = HL_NUMBER)) ∨
           (c = 46 ∧ prev_hl = HL_NUMBER)) then
        scanLoop syn render fuel
          { st with hl := setRange st.hl st.i 1 HL_NUMBER, i := st.i + 1, prevSep := false }
      else if st.prevSep = true then
        match findKeyword render st.i syn.keywords with
        | some kd =>
          scanLoop syn render fuel
            { st with
              hl := setRange st.hl st.i kd.1 (if kd.2 then HL_COMMON_TYPES else HL_KEYWORDS),
              i := st.i + kd.1, prevSep := false }
        | none =>
          scanLoop syn render fuel { st with prevSep := is_seperator c, i := st.i + 1 }
      else
        scanLoop syn render fuel { st with prevSep := is_seperator c, i := st.i + 1 }
    else st

/-- Initial scan state (cactus.c lines 281, 295-298): all-HL_NORMAL
highlights, index 0, `prevSep = 1`, `in_string = 0`, `in_comment` seeded
from the previous row's `hl_open_comment`. -/
def initScan (len : Nat) (seed : Bool) : ScanSt :=
  { hl := List.replicate len HL_NORMAL, i := 0, prevSep := true,
    inString := 0, inComment := seed }

/-- erow (cactus.c lines 71-79): raw bytes, render bytes, highlight array and
the open-comment flag.  The `idx` field is represented by the row's position
in the row list (the C code keeps `idx` equal to that position). -/
structure ERow where
  chars : List Nat
  render : List Nat
  hl : List Nat
  hl_open_comment : Bool
deriving DecidableEq, Repr

instance : Inhabited ERow := ⟨⟨[], [], [], false⟩⟩

/-- editorUpdateSyntax (cactus.c lines 278-394) at the row-store level, with
fuel for the tail recursion into following rows.  `limit` is the value of
`E.numRows` the C code observes (one less than the array length while
editorInsertRow is mid-flight).  The seed is read from the previous row
(line 298); after the scan, `hl_open_comment` is updated, and if it changed
and `idx + 1 < limit` the next row is re-highlighted (lines 389-393). -/
def updateSyntaxAux (syn : Option SynDef) (limit : Nat) : Nat → List ERow → Nat → List ERow
  | 0, rows, _ => rows
  | fuel + 1, rows, idx =>
    match rows.get? idx with
    | none => rows
    | some r =>
      match syn with
      | none => rows.set idx { r with hl := List.replicate r.render.length HL_NORMAL }
      | some sd =>
        let seed : Bool := decide (0 < idx) && (rows.getD (idx - 1) default).hl_open_comment
        let st := scanLoop sd r.render (r.render.length + 1) (initScan r.render.length seed)
        let changed := r.hl_open_comment != st.inComment
        let rows2 := rows.set idx { r with hl := st.hl, hl_open_comment := st.inComment }
        if changed = true ∧ idx + 1 < limit then updateSyntaxAux syn limit fuel rows2 (idx + 1)
        else rows2

/-- editorUpdateSyntax on row `idx` of the row store. -/
def editorUpdateSyntaxAt (syn : Option SynDef) (limit : Nat) (rows : List ERow) (idx : Nat) :
    List ERow :=
  updateSyntaxAux syn limit (limit + 1) rows idx

/-- The tab-expansion loop of editorUpdateRow (cactus.c lines 485-494):
`col` is the running render length (`index` in the C code); a tab appends
one space and then spaces until the length is a multiple of
CACTUS_TAB_STOP, i.e. `CACTUS_TAB_STOP - col % CACTUS_TAB_STOP` spaces. -/
def renderFrom (col : Nat) : List Nat → List Nat
  | [] => []
  | c :: cs =>
    if c = 9 then
      let pad := CACTUS_TAB_STOP - col % CACTUS_TAB_STOP
      List.replicate pad 32 ++ renderFrom (col + pad) cs
    else c :: renderFrom (col + 1) cs

/-- editorUpdateRow (cactus.c lines 474-499): rebuild `render` from `chars`,
then run editorUpdateSyntax on the row. -/
def editorUpdateRowAt (syn : Option SynDef) (limit : Nat) (rows : List ERow) (idx : Nat) :
    List ERow :=
  match rows.get? idx with
  | none => rows
  | some r =>
    editorUpdateSyntaxAt syn limit (rows.set idx { r with render := renderFrom 0 r.chars }) idx

/-- editorRowCxToRx (cactus.c lines 441-456): walk the first `cx` raw bytes;
a tab advances `rx` to the next tab stop, anything else advances it by 1. -/
def cxToRxAux : List Nat → Nat → Nat → Nat
  | [], _, rx => rx
  | _ :: _, 0, rx => rx
  | c :: cs, cx + 1, rx =>
    cxToRxAux cs cx
      (if c = 9 then rx + (CACTUS_TAB_STOP - rx % CACTUS_TAB_STOP) else rx + 1)

/-- editorRowCxToRx on a row's raw bytes. -/
def editorRowCxToRx (chars : List Nat) (cx : Nat) : Nat := cxToRxAux chars cx 0

/-- editorRowRxToCx (cactus.c lines 459-471): walk raw bytes accumulating the
same render width `cur_rx`; return the first raw index whose accumulated
width exceeds `rx`, or the row size if none does. -/
def rxToCxAux : List Nat → Nat → Nat → Nat → Nat
  | [], cx, _, _ => cx
  | c :: cs, cx, cur_rx, rx =>
    let cur2 := if c = 9 then cur_rx + (CACTUS_TAB_STOP - cur_rx % CACTUS_TAB_STOP)
                else cur_rx + 1
    if rx < cur2 then cx else rxToCxAux cs (cx + 1) cur2 rx

/-- editorRowRxToCx on a row's raw bytes. -/
def editorRowRxToCx (chars : List Nat) (rx : Nat) : Nat := rxToCxAux chars 0 0 rx

/-- struct editorConfig (cactus.c lines 82-97), the fields the core mutates:
cursor, render column, scroll offsets, screen size, the row store, the dirty
counter and the selected syntax. -/
structure EState where
  cx : Nat
  cy : Nat
  rx : Int
  rowOff : Int
  colOff : Int
  screenRows : Int
  screenCols : Int
  rows : List ERow
  dirty : Int
  syn : Option SynDef
deriving DecidableEq, Repr

instance : Inhabited EState :=
  ⟨⟨0, 0, 0, 0, 0, 0, 0, [], 0, none⟩⟩

/-- editorInsertRow (cactus.c lines 501-524): out-of-range `at` is a silent
no-op; otherwise the row is inserted, rendered and highlighted (with
`E.numRows` still holding the old count during the update, line 520 before
line 522), and the dirty counter is incremented. -/
def editorInsertRow (s : EState) (at_ : Int) (str : List Nat) : EState :=
  if at_ < 0 ∨ (s.rows.length : Int) < at_ then s
  else
    let rows1 := s.rows.insertIdx at_.toNat ⟨str, [], [], false⟩
    { s with
      rows := editorUpdateRowAt s.syn s.rows.length rows1 at_.toNat,
      dirty := s.dirty + 1 }

/-- editorDelRow (cactus.c lines 533-541): out-of-range `at` is a silent
no-op; otherwise the row is removed and the dirty counter incremented. -/
def editorDelRow (s : EState) (at_ : Int) : EState :=
  if at_ < 0 ∨ (s.rows.length : Int) ≤ at_ then s
  else { s with rows := s.rows.eraseIdx at_.toNat, dirty := s.dirty + 1 }

/-- editorRowInsertChar (cactus.c lines 543-558) on row `idx`: clamp `at`
to `[0, size]`, insert the byte, re-render, bump dirty. -/
def editorRowInsertChar (s : EState) (idx : Nat) (at_ : Int) (c : Nat) : EState :=
  match s.rows.get? idx with
  | none => s
  | some r =>
    let at2 := if at_ < 0 ∨ (r.chars.length : Int) < at_ then r.chars.length else at_.toNat
    let rows1 := s.rows.set idx { r with chars := r.chars.insertIdx at2 c }
    { s with
      rows := editorUpdateRowAt s.syn s.rows.length rows1 idx,
      dirty := s.dirty + 1 }

/-- editorRowDelChar (cactus.c lines 571-578) on row `idx`: out-of-range `at`
returns with no change at all; otherwise delete the byte and re-render. -/
def editorRowDelChar (s : EState) (idx : Nat) (at_ : Int) : EState :=
  match s.rows.get? idx with
  | none => s
  | some r =>
    if at_ < 0 ∨ (r.chars.length : Int) ≤ at_ then s
    else
      let rows1 := s.rows.set idx { r with chars := r.chars.eraseIdx at_.toNat }
      { s with
        rows := editorUpdateRowAt s.syn s.rows.length rows1 idx,
        dirty := s.dirty + 1 }

/-- editorRowAppendString (cactus.c lines 561-568) on row `idx`. -/
def editorRowAppendString (s : EState) (idx : Nat) (str : List Nat) : EState :=
  match s.rows.get? idx with
  | none => s
  | some r =>
    let rows1 := s.rows.set idx { r with chars := r.chars ++ str }
    { s with
      rows := editorUpdateRowAt s.syn s.rows.length rows1 idx,
      dirty := s.dirty + 1 }

/-- One `getline` call: the bytes up to and including the first newline, or
the whole remainder when no newline is left. -/
def getLinesAux : Nat → List Nat → List (List Nat)
  | 0, _ => []
  | _, [] => []
  | fuel + 1, bs =>
    let pre := bs.takeWhile (fun c => c ≠ 10)
    match bs.drop pre.length with
    | [] => [pre]
    | _ :: rs => (pre ++ [10]) :: getLinesAux fuel rs

/-- Split a file's bytes into getline-style lines. -/
def getLines (bs : List Nat) : List (List Nat) := getLinesAux (bs.length + 1) bs

/-- The terminator-stripping loop of editorOpen (cactus.c lines 676-677):
drop trailing `\n` and `\r` bytes. -/
def stripEol (l : List Nat) : List Nat :=
  (l.reverse.dropWhile (fun c => c == 10 || c == 13)).reverse

/-- editorOpen (cactus.c lines 660-683) on the file's byte content: the
first getline result (line 673) is discarded by the source; each remaining
line is stripped of trailing terminators and appended as a row via
editorInsertRow; finally `dirty` is reset to 0. -/
def editorOpenE (syn : Option SynDef) (content : List Nat) : EState :=
  let kept :=
    match getLines content with
    | [] => []
    | _ :: rest => rest
  let s1 := kept.foldl
    (fun st l => editorInsertRow st (st.rows.length : Int) (stripEol l))
    { (default : EState) with syn := syn }
  { s1 with dirty := 0 }

/-- editorRowsToString (cactus.c lines 635-657): every row's raw bytes, each
followed by one `\n`. -/
def editorRowsToString (rows : List ERow) : List Nat :=
  rows.foldr (fun r acc => r.chars ++ 10 :: acc) []

/-- Row length seen by the cursor-snapping code (cactus.c lines 1079-1080):
the row's size when the cursor is on a real row, `0` on the virtual row at
or past the end of the buffer. -/
def rowLenAt (rows : List ERow) (cy : Nat) : Nat :=
  if cy < rows.length then (rows.getD cy default).chars.length else 0

/-- The four arrow keys fed to editorMoveCursor. -/
inductive ArrowKey where
  | left
  | right
  | up
  | down
deriving DecidableEq, Repr

/-- The `switch` of editorMoveCursor (cactus.c lines 1047-1076), before the
end-of-line snap.  `row` is NULL exactly when `cy` is at or past the row
count.  Note the source nests the move-right-to-next-line branch inside the
ARROW_LEFT else-chain (lines 1055-1059). -/
def moveCursorKey (s : EState) (k : ArrowKey) : EState :=
  let row? : Option ERow := if s.rows.length ≤ s.cy then none else s.rows.get? s.cy
  match k with
  | .left =>
    if s.cx ≠ 0 then { s with cx := s.cx - 1 }
    else if 0 < s.cy then
      { s with cy := s.cy - 1, cx := (s.rows.getD (s.cy - 1) default).chars.length }
    else
      match row? with
      | some r => if s.cx = r.chars.length then { s with cy := s.cy + 1, cx := 0 } else s
      | none => s
  | .right =>
    match row? with
    | some r => if s.cx < r.chars.length then { s with cx := s.cx + 1 } else s
    | none => s
  | .up => if s.cy ≠ 0 then { s with cy := s.cy - 1 } else s
  | .down => if s.cy < s.rows.length then { s with cy := s.cy + 1 } else s

/-- The end-of-line snap of editorMoveCursor (cactus.c lines 1078-1083). -/
def snapCursor (s : EState) : EState :=
  let rowLen := rowLenAt s.rows s.cy
  if rowLen < s.cx then { s with cx := rowLen } else s

/-- editorMoveCursor (cactus.c lines 1043-1084). -/
def editorMoveCursor (s : EState) (k : ArrowKey) : EState :=
  snapCursor (moveCursorKey s k)

/-- editorScroll (cactus.c lines 830-855): recompute `rx`, then snap the
vertical and horizontal offsets so the cursor is inside the viewport. -/
def editorScroll (s : EState) : EState :=
  let rx : Int :=
    if s.cy < s.rows.length then
      (editorRowCxToRx (s.rows.getD s.cy default).chars s.cx : Int)
    else 0
  let rowOff := if (s.cy : Int) < s.rowOff then (s.cy : Int) else s.rowOff
  let rowOff := if rowOff + s.screenRows ≤ (s.cy : Int) then
      (s.cy : Int) - s.screenRows + 1 else rowOff
  let colOff := if rx < s.colOff then rx else s.colOff
  let colOff := if colOff + s.screenCols ≤ rx then rx - s.screenCols + 1 else colOff
  { s with rx := rx, rowOff := rowOff, colOff := colOff }

/-- `strstr(hay, needle)` returning the byte offset of the first occurrence
of `needle` in `hay` (NUL-free byte strings). -/
def strstrB : List Nat → List Nat → Option Nat
  | [], needle => if needle.isEmpty then some 0 else none
  | h :: hs, needle =>
    if needle.isPrefixOf (h :: hs) then some 0
    else (strstrB hs needle).map (fun k => k + 1)

/-- The row-scanning loop of editorFindCallback (cactus.c lines 755-776),
restricted to the row index it finds: starting from `current`, step by
`direction`, wrap `-1` to the last row and `numRows` to row 0, and stop at
the first row whose render contains `query`; at most one pass over all rows
(the fuel is `numRows`, matching the `for` bound). -/
def findLoop (renders : List (List Nat)) (query : List Nat) (direction : Int) :
    Nat → Int → Option Nat
  | 0, _ => none
  | n + 1, current =>
    let c1 := current + direction
    let c2 : Int := if c1 = -1 then (renders.length : Int) - 1
                    else if c1 = (renders.length : Int) then 0 else c1
    if (strstrB (renders.getD c2.toNat []) query).isSome then some c2.toNat
    else findLoop renders query direction n c2

/-- One search step of editorFindCallback after the key handling (cactus.c
lines 751-776): `lastMatch = -1` forces the direction forward, and the scan
starts one step past `lastMatch`. -/
def editorFindStep (renders : List (List Nat)) (query : List Nat)
    (lastMatch : Int) (direction : Int) : Option Nat :=
  let dir := if lastMatch = -1 then 1 else direction
  findLoop renders query dir renders.length lastMatch

/-- The row indices the search loop visits, in order (same stepping and
wrapping as `findLoop`). -/
def visitOrder (len : Nat) (direction : Int) : Nat → Int → List Nat
  | 0, _ => []
  | n + 1, current =>
    let c1 := current + direction
    let c2 : Int := if c1 = -1 then (len : Int) - 1
                    else if c1 = (len : Int) then 0 else c1
    c2.toNat :: visitOrder len direction n c2

/-- Keys as seen by the quit gate of editorProcessKeypress: Ctrl-Q or
anything else. -/
inductive EKey where
  | quit
  | other
deriving DecidableEq, Repr

/-- Outcome of one editorProcessKeypress call for the quit gate: whether the
process exited, the value of the static `quitTimes` afterwards, and the
count shown in the warning status message (if one was shown). -/
structure KpResult where
  exited : Bool
  quitTimes : Nat
  statusCounter : Option Nat
deriving DecidableEq, Repr

/-- The quit-gate behaviour of editorProcessKeypress (cactus.c lines
1087-1169): on Ctrl-Q with a dirty buffer and `quitTimes > 0`, show the
warning with the current counter, decrement it and return without exiting
(lines 1099-1103); on Ctrl-Q otherwise, exit (line 1106); on any other key
the handler falls through to `quitTimes = CACTUS_QUIT_TIMES` (line 1168). -/
def editorProcessKeypressQ (dirty : Int) (qt : Nat) : EKey → KpResult
  | .quit =>
    if dirty ≠ 0 ∧ 0 < qt then ⟨false, qt - 1, some qt⟩
    else ⟨true, qt, none⟩
  | .other => ⟨false, CACTUS_QUIT_TIMES, none⟩

/-- Run a sequence of keypresses through the quit gate, returning the final
`quitTimes` and whether the process exited during the sequence. -/
def runKeys (dirty : Int) : Nat → List EKey → Nat × Bool
  | qt, [] => (qt, false)
  | qt, k :: ks =>
    let r := editorProcessKeypressQ dirty qt k
    if r.exited then (qt, true) else runKeys dirty r.quitTimes ks

/-- Membership form of the C3 invariant: every row's highlight array has
exactly one entry per render byte. -/
def hlRenderInv (rows : List ERow) : Prop :=
  ∀ r ∈ rows, r.hl.length = r.render.length

instance (rows : List ERow) : Decidable (hlRenderInv rows) := by
  unfold hlRenderInv; infer_instance

theorem setRange_length (l : List Nat) (s n v : Nat) :
    (setRange l s n v).length = l.length := by
  simp [setRange]

theorem getB_setRange_lt (l : List Nat) (s n v j : Nat) (h : j < s) :
    getB (setRange l s n v) j = getB l j := by
  unfold getB setRange
  rcases lt_or_le j l.length with hj | hj
  · simp [List.getD_eq_getElem?_getD, List.getElem?_map, List.getElem?_range, hj,
      Nat.not_le.mpr h]
  · rw [List.getD_eq_default _ _ (by simpa using hj), List.getD_eq_default _ _ hj]

theorem getB_setRange_in (l : List Nat) (s n v j : Nat)
    (h1 : s ≤ j) (h2 : j < s + n) (h3 : j < l.length) :
    getB (setRange l s n v) j = v := by
  unfold getB setRange
  simp [List.getD_eq_getElem?_getD, List.getElem?_map, List.getElem?_range, h1, h2, h3]

theorem matchAt_nil (s : List Nat) (i : Nat) : matchAt s i [] = true := rfl

theorem C_mce_eq : C_syndef.mce = [42, 47] := by decide

theorem C_mcs_eq : C_syndef.mcs = [47, 42] := by decide

theorem C_scs_eq : C_syndef.scs = [47, 47] := by decide

/-- A close-delimiter match cannot start at or past the end of the render
(the virtual NUL never equals a delimiter byte). -/
theorem matchAt_mce_out (render : List Nat) (j : Nat) (h : render.length ≤ j) :
    matchAt render j C_syndef.mce = false := by
  have e1 : getB render j = 0 := by unfold getB; exact List.getD_eq_default _ _ h
  rw [C_mce_eq]
  simp [matchAt, e1]

/-- An open-delimiter match cannot start at or past the end of the render. -/
theorem matchAt_mcs_out (render : List Nat) (j : Nat) (h : render.length ≤ j) :
    matchAt render j C_syndef.mcs = false := by
  have e1 : getB render j = 0 := by unfold getB; exact List.getD_eq_default _ _ h
  rw [C_mcs_eq]
  simp [matchAt, e1]

/-- A close-delimiter match at `p` lies fully inside the render. -/
theorem matchAt_mce_bound (render : List Nat) (p : Nat)
    (h : matchAt render p C_syndef.mce = true) : p + 2 ≤ render.length := by
  by_contra hc
  have h2 : render.length ≤ p + 1 := by omega
  have e1 : getB render (p + 1) = 0 := by unfold getB; exact List.getD_eq_default _ _ h2
  rw [C_mce_eq] at h
  simp [matchAt, e1] at h

theorem renderFrom_append (xs ys : List Nat) : ∀ col,
    renderFrom col (xs ++ ys) =
      renderFrom col xs ++ renderFrom (col + (renderFrom col xs).length) ys := by
  induction xs with
  | nil => intro col; simp [renderFrom]
  | cons c xs ih =>
    intro col
    by_cases hc : c = 9
    · simp [renderFrom, if_pos hc, ih, Nat.add_assoc]
    · simp [renderFrom, if_neg hc, ih, Nat.add_assoc]
      rw [Nat.add_comm 1 (renderFrom (col + 1) xs).length]

theorem renderFrom_length_ge (xs : List Nat) : ∀ col,
    xs.length ≤ (renderFrom col xs).length := by
  induction xs with
  | nil => intro col; simp [renderFrom]
  | cons c xs ih =>
    intro col
    by_cases hc : c = 9
    · have hpad : 1 ≤ CACTUS_TAB_STOP - col % CACTUS_TAB_STOP := by
        have : col % CACTUS_TAB_STOP < CACTUS_TAB_STOP := Nat.mod_lt _ (by decide)
        omega
      simp only [renderFrom, if_pos hc, List.length_cons, List.length_append,
        List.length_replicate]
      have := ih (col + (CACTUS_TAB_STOP - col % CACTUS_TAB_STOP))
      omega
    · simp only [renderFrom, if_neg hc, List.length_cons]
      exact Nat.succ_le_succ (ih (col + 1))

theorem stepRx_lt (c r0 : Nat) :
    r0 < (if c = 9 then r0 + (CACTUS_TAB_STOP - r0 % CACTUS_TAB_STOP) else r0 + 1) := by
  have : r0 % CACTUS_TAB_STOP < CACTUS_TAB_STOP := Nat.mod_lt _ (by decide)
  split <;> omega

theorem cxToRxAux_le (cs : List Nat) : ∀ cx r0, r0 ≤ cxToRxAux cs cx r0 := by
  induction cs with
  | nil => intro cx r0; cases cx <;> simp [cxToRxAux]
  | cons c cs ih =>
    intro cx r0
    cases cx with
    | zero => simp [cxToRxAux]
    | succ k =>
      calc r0 ≤ (if c = 9 then r0 + (CACTUS_TAB_STOP - r0 % CACTUS_TAB_STOP) else r0 + 1) :=
            Nat.le_of_lt (stepRx_lt c r0)
        _ ≤ cxToRxAux cs k (if c = 9 then r0 + (CACTUS_TAB_STOP - r0 % CACTUS_TAB_STOP)
              else r0 + 1) := ih k _
        _ = cxToRxAux (c :: cs) (k + 1) r0 := by rw [cxToRxAux]

theorem rx_roundtrip_aux (cs : List Nat) : ∀ cx a r0, cx ≤ cs.length →
    rxToCxAux cs a r0 (cxToRxAux cs cx r0) = a + cx := by
  induction cs with
  | nil =>
    intro cx a r0 h
    have : cx = 0 := Nat.le_zero.mp h
    subst this
    simp [cxToRxAux, rxToCxAux]
  | cons c cs ih =>
    intro cx a r0 h
    cases cx with
    | zero =>
      have hlt := stepRx_lt c r0
      simp only [cxToRxAux, rxToCxAux]
      rw [if_pos hlt]
      omega
    | succ k =>
      have hk : k ≤ cs.length := by simpa using h
      have hle : (if c = 9 then r0 + (CACTUS_TAB_STOP - r0 % CACTUS_TAB_STOP) else r0 + 1) ≤
          cxToRxAux cs k (if c = 9 then r0 + (CACTUS_TAB_STOP - r0 % CACTUS_TAB_STOP)
            else r0 + 1) := cxToRxAux_le cs k _
      simp only [cxToRxAux, rxToCxAux]
      rw [if_neg (by omega)]
      rw [ih k (a + 1) _ hk]
      omega

theorem scanLoop_hl_length (syn : SynDef) (render : List Nat) : ∀ fuel st,
    ((scanLoop syn render fuel st).hl).length = st.hl.length := by
  intro fuel
  induction fuel with
  | zero => intro st; rfl
  | succ n ih =>
    intro st
    simp only [scanLoop]
    by_cases hi : st.i < render.length
    · simp only [if_pos hi]
      split_ifs <;> (try split) <;> simp [ih, setRange_length]
    · simp only [if_neg hi]

/-- The scan never writes a highlight below its current index. -/
theorem scanLoop_no_write_below (syn : SynDef) (render : List Nat) : ∀ fuel st j, j < st.i →
    getB (scanLoop syn render fuel st).hl j = getB st.hl j := by
  intro fuel
  induction fuel with
  | zero => intro st j hj; rfl
  | succ n ih =>
    intro st j hj
    simp only [scanLoop]
    by_cases hi : st.i < render.length
    · simp only [if_pos hi]
      split_ifs <;> (try split) <;>
        first
          | (dsimp only; rw [getB_setRange_lt _ _ _ _ _ hj])
          | (refine (ih _ j ?_).trans ?_ <;> dsimp only <;>
              first
                | omega
                | rfl
                | (repeat' rw [getB_setRange_lt _ _ _ _ _ (by omega)]))
    · simp only [if_neg hi]

theorem C_flags_bit0 : C_syndef.flags.testBit 0 = true := by decide

theorem C_flags_bit1 : C_syndef.flags.testBit 1 = true := by decide

/-- While the scan is inside an open block comment that never closes, every
remaining byte is tagged block-comment and the final comment state stays
open (the in-comment arm of cactus.c lines 313-324 with the close test
always failing). -/
theorem scan_comment_run (render : List Nat) : ∀ fuel st,
    st.inString = 0 → st.inComment = true → st.hl.length = render.length →
    (∀ j, st.i ≤ j → matchAt render j C_syndef.mce = false) →
    render.length ≤ st.i + fuel →
    (scanLoop C_syndef render fuel st).inComment = true ∧
    (∀ j, st.i ≤ j → j < render.length →
      getB (scanLoop C_syndef render fuel st).hl j = HL_MULTI_LINE_COMMENT) := by
  intro fuel
  induction fuel with
  | zero =>
    intro st hs hc hlen hm hfuel
    refine ⟨hc, ?_⟩
    intro j h1 h2
    exact absurd h2 (by omega)
  | succ n ih =>
    intro st hs hc hlen hm hfuel
    rcases lt_or_le st.i render.length with hi | hi
    · have hmce : ¬ matchAt render st.i C_syndef.mce = true := by
        simp [hm st.i (le_refl _)]
      have hb1 : ¬(0 < C_syndef.scs.length ∧ st.inString = 0 ∧ st.inComment = false ∧
          matchAt render st.i C_syndef.scs = true) := by simp [hc]
      have hb2 : 0 < C_syndef.mcs.length ∧ 0 < C_syndef.mce.length ∧ st.inString = 0 ∧
          (st.inComment = true ∨ matchAt render st.i C_syndef.mcs = true) :=
        ⟨by decide, by decide, hs, Or.inl hc⟩
      simp only [scanLoop, if_pos hi, if_neg hb1, if_pos hb2, if_pos hc, if_neg hmce]
      have hlen1 : (setRange st.hl st.i 1 HL_MULTI_LINE_COMMENT).length = render.length := by
        rw [setRange_length]; exact hlen
      obtain ⟨ih1, ih2⟩ := ih
        { st with hl := setRange st.hl st.i 1 HL_MULTI_LINE_COMMENT, i := st.i + 1 }
        hs hc hlen1 (fun j hj => hm j (by simp at hj ⊢; omega)) (by simp; omega)
      refine ⟨ih1, ?_⟩
      intro j h1 h2
      rcases eq_or_lt_of_le h1 with h1e | h1lt
      · subst h1e
        rw [scanLoop_no_write_below C_syndef render n _ st.i (Nat.lt_succ_self st.i)]
        exact getB_setRange_in _ _ _ _ _ (le_refl _) (by omega) (by omega)
      · exact ih2 j (by simpa using h1lt) h2
    · simp only [scanLoop, if_neg (not_lt.mpr hi)]
      refine ⟨hc, ?_⟩
      intro j h1 h2
      exact absurd h2 (by omega)

theorem C_mce_len : C_syndef.mce.length = 2 := by decide

/-- From inside an open block comment, the scan tags everything up to and
including the first close delimiter as block-comment and continues past it
with the comment state closed (the close arm of cactus.c lines 315-320). -/
theorem scan_close_run (render : List Nat) : ∀ fuel st p,
    st.inString = 0 → st.inComment = true → st.hl.length = render.length →
    st.i ≤ p → matchAt render p C_syndef.mce = true →
    (∀ j, st.i ≤ j → j < p → matchAt render j C_syndef.mce = false) →
    render.length ≤ st.i + fuel →
    ∃ fuel2 hl2,
      scanLoop C_syndef render fuel st =
        scanLoop C_syndef render fuel2 ⟨hl2, p + 2, true, 0, false⟩ ∧
      hl2.length = render.length ∧
      (∀ j, st.i ≤ j → j < p + 2 → getB hl2 j = HL_MULTI_LINE_COMMENT) ∧
      (∀ j, j < st.i → getB hl2 j = getB st.hl j) ∧
      render.length ≤ (p + 2) + fuel2 := by
  intro fuel
  induction fuel with
  | zero =>
    intro st p hs hc hlen hip hp hfirst hfuel
    exact absurd (matchAt_mce_bound render p hp) (by omega)
  | succ n ih =>
    intro st p hs hc hlen hip hp hfirst hfuel
    have hbound := matchAt_mce_bound render p hp
    have hi : st.i < render.length := by omega
    have hb1 : ¬(0 < C_syndef.scs.length ∧ st.inString = 0 ∧ st.inComment = false ∧
        matchAt render st.i C_syndef.scs = true) := by simp [hc]
    have hb2 : 0 < C_syndef.mcs.length ∧ 0 < C_syndef.mce.length ∧ st.inString = 0 ∧
        (st.inComment = true ∨ matchAt render st.i C_syndef.mcs = true) :=
      ⟨by decide, by decide, hs, Or.inl hc⟩
    rcases eq_or_lt_of_le hip with he | hlt
    · subst he
      simp only [scanLoop, if_pos hi, if_neg hb1, if_pos hb2, if_pos hc, if_pos hp]
      refine ⟨n, setRange (setRange st.hl st.i 1 HL_MULTI_LINE_COMMENT) st.i
          C_syndef.mce.length HL_MULTI_LINE_COMMENT, ?_, ?_, ?_, ?_, ?_⟩
      · simp only [C_mce_len, hs]
      · simp only [setRange_length]; exact hlen
      · intro j h1 h2
        refine getB_setRange_in _ _ _ _ _ h1 ?_ ?_
        · rw [C_mce_len]; omega
        · simp only [setRange_length]; omega
      · intro j hj
        rw [getB_setRange_lt _ _ _ _ _ hj, getB_setRange_lt _ _ _ _ _ hj]
      · omega
    · have hmce : ¬ matchAt render st.i C_syndef.mce = true := by
        simp [hfirst st.i (le_refl _) hlt]
      simp only [scanLoop, if_pos hi, if_neg hb1, if_pos hb2, if_pos hc, if_neg hmce]
      obtain ⟨fuel2, hl2, heq, hlen2, hmid, hpres, hfuel2⟩ :=
        ih { st with hl := setRange st.hl st.i 1 HL_MULTI_LINE_COMMENT, i := st.i + 1 } p
          hs hc (by simp only [setRange_length]; exact hlen) (by simpa using hlt) hp
          (fun j hj1 hj2 => hfirst j (by simp at hj1; omega) hj2)
          (by simp; omega)
      refine ⟨fuel2, hl2, heq, hlen2, ?_, ?_, hfuel2⟩
      · intro j h1 h2
        rcases eq_or_lt_of_le h1 with h1e | h1lt
        · subst h1e
          rw [hpres st.i (Nat.lt_succ_self st.i)]
          exact getB_setRange_in _ _ _ _ _ (le_refl _) (by omega) (by omega)
        · exact hmid j (by simpa using h1lt) h2
      · intro j hj
        rw [hpres j (by simp; omega), getB_setRange_lt _ _ _ _ _ hj]

/-- Once outside any block comment, the scan can only re-enter one via an
open-delimiter match; with none present the final comment state stays
closed. -/
theorem scan_no_open (render : List Nat) : ∀ fuel st,
    st.inComment = false →
    (∀ j, st.i ≤ j → matchAt render j C_syndef.mcs = false) →
    (scanLoop C_syndef render fuel st).inComment = false := by
  intro fuel
  induction fuel with
  | zero => intro st hc _; exact hc
  | succ n ih =>
    intro st hc hm
    simp only [scanLoop]
    by_cases hi : st.i < render.length
    · have hmcs : matchAt render st.i C_syndef.mcs = false := hm st.i (le_refl _)
      have hb2 : ¬(0 < C_syndef.mcs.length ∧ 0 < C_syndef.mce.length ∧ st.inString = 0 ∧
          (st.inComment = true ∨ matchAt render st.i C_syndef.mcs = true)) := by
        simp [hc, hmcs]
      simp only [if_pos hi, if_neg hb2]
      split_ifs <;> (try split) <;>
        first
          | exact hc
          | exact ih _ hc (fun j hj => hm j (le_trans (Nat.le_add_right st.i _) hj))
    · simp only [if_neg hi]; exact hc

theorem getD_set_self {α : Type} [Inhabited α] (l : List α) (n : Nat) (v : α)
    (h : n < l.length) : (l.set n v).getD n default = v := by
  simp [List.getD_eq_getElem?_getD, List.getElem?_set_self, h]

theorem getD_set_ne {α : Type} [Inhabited α] (l : List α) (n : Nat) (v : α) (k : Nat)
    (h : k ≠ n) : (l.set n v).getD k default = l.getD k default := by
  simp [List.getD_eq_getElem?_getD, List.getElem?_set_ne (Ne.symm h)]

theorem hlRenderInv_iff (rows : List ERow) : hlRenderInv rows ↔
    ∀ k, k < rows.length →
      ((rows.getD k default).hl.length = (rows.getD k default).render.length) := by
  constructor
  · intro h k hk
    have : rows.getD k default = rows[k] := by
      simp [List.getD_eq_getElem?_getD, List.getElem?_eq_getElem hk]
    rw [this]
    exact h _ (List.getElem_mem hk)
  · intro h r hr
    obtain ⟨k, hk, he⟩ := List.mem_iff_getElem.mp hr
    have : rows.getD k default = rows[k] := by
      simp [List.getD_eq_getElem?_getD, List.getElem?_eq_getElem hk]
    rw [← he, ← this]
    exact h k hk

theorem updateSyntaxAux_length (limit : Nat) : ∀ (fuel : Nat) (syn : Option SynDef)
    (rows : List ERow) (idx : Nat),
    (updateSyntaxAux syn limit fuel rows idx).length = rows.length := by
  intro fuel
  induction fuel with
  | zero => intro syn rows idx; rfl
  | succ n ih =>
    intro syn rows idx
    simp only [updateSyntaxAux]
    split
    · rfl
    · split
      · simp [List.length_set]
      · split_ifs
        · rw [ih]; simp [List.length_set]
        · simp [List.length_set]

/-- After editorUpdateSyntax runs on row `idx` (and recursively on the rows
below it), every row whose highlight array was consistent before, plus every
row the update touched, has one highlight entry per render byte. -/
theorem updateSyntaxAux_inv (limit : Nat) : ∀ (fuel : Nat) (syn : Option SynDef)
    (rows : List ERow) (idx : Nat),
    (∀ k, k < rows.length → k ≠ idx →
      ((rows.getD k default).hl.length = (rows.getD k default).render.length)) →
    limit - idx < fuel →
    ∀ k, k < (updateSyntaxAux syn limit fuel rows idx).length →
      (((updateSyntaxAux syn limit fuel rows idx).getD k default).hl.length =
       ((updateSyntaxAux syn limit fuel rows idx).getD k default).render.length) := by
  intro fuel
  induction fuel with
  | zero =>
    intro syn rows idx _ hf
    exact absurd hf (Nat.not_lt_zero _)
  | succ n ih =>
    intro syn rows idx hexc hf k hk
    rw [updateSyntaxAux_length] at hk
    rcases hg : rows.get? idx with _ | r
    · have hnone : rows.length ≤ idx := List.get?_eq_none.mp hg
      simp only [updateSyntaxAux, hg]
      exact hexc k hk (by omega)
    · have hidx : idx < rows.length := by
        rcases List.get?_eq_some.mp hg with ⟨h, _⟩
        exact h
      rcases syn with _ | sd
      · simp only [updateSyntaxAux, hg]
        by_cases hke : k = idx
        · subst hke
          rw [getD_set_self _ _ _ hidx]
          simp
        · rw [getD_set_ne _ _ _ _ hke]
          exact hexc k hk hke
      · simp only [updateSyntaxAux, hg]
        have hstlen : (scanLoop sd r.render (r.render.length + 1)
            (initScan r.render.length
              (decide (0 < idx) && (rows.getD (idx - 1) default).hl_open_comment))).hl.length =
            r.render.length := by
          rw [scanLoop_hl_length]
          simp [initScan]
        split_ifs with hch
        · refine ih _ _ _ ?_ (by omega) k (by rw [updateSyntaxAux_length]; simpa using hk)
          intro k2 hk2 hk2e
          rw [List.length_set] at hk2
          by_cases hke : k2 = idx
          · subst hke
            rw [getD_set_self _ _ _ hidx]
            exact hstlen
          · rw [getD_set_ne _ _ _ _ hke]
            exact hexc k2 hk2 hke
        · by_cases hke : k = idx
          · subst hke
            rw [getD_set_self _ _ _ hidx]
            exact hstlen
          · rw [getD_set_ne _ _ _ _ hke]
            exact hexc k hk hke

theorem editorUpdateSyntaxAt_inv (syn : Option SynDef) (limit : Nat) (rows : List ERow)
    (idx : Nat) (h : hlRenderInv rows) :
    hlRenderInv (editorUpdateSyntaxAt syn limit rows idx) := by
  rw [hlRenderInv_iff] at h ⊢
  unfold editorUpdateSyntaxAt
  exact updateSyntaxAux_inv limit (limit + 1) syn rows idx (fun k hk _ => h k hk) (by omega)

theorem editorUpdateRowAt_inv (syn : Option SynDef) (limit : Nat) (rows : List ERow)
    (idx : Nat) (h : hlRenderInv rows) :
    hlRenderInv (editorUpdateRowAt syn limit rows idx) := by
  unfold editorUpdateRowAt
  rcases hg : rows.get? idx with _ | r
  · simpa only [hg] using h
  · simp only [hg]
    rw [hlRenderInv_iff]
    unfold editorUpdateSyntaxAt
    refine updateSyntaxAux_inv limit (limit + 1) syn _ idx ?_ (by omega)
    intro k hk hke
    rw [List.length_set] at hk
    rw [getD_set_ne _ _ _ _ hke]
    exact (hlRenderInv_iff rows).mp h k hk

theorem editorInsertRow_inv (s : EState) (at_ : Int) (str : List Nat)
    (h : hlRenderInv s.rows) : hlRenderInv (editorInsertRow s at_ str).rows := by
  unfold editorInsertRow
  split_ifs with hrange
  · exact h
  · dsimp only
    apply editorUpdateRowAt_inv
    intro r hr
    have hle : at_.toNat ≤ s.rows.length := by
      push_neg at hrange
      omega
    rcases (List.mem_insertIdx hle).mp hr with rfl | hmem
    · rfl
    · exact h r hmem

theorem editorDelRow_inv (s : EState) (at_ : Int) (h : hlRenderInv s.rows) :
    hlRenderInv (editorDelRow s at_).rows := by
  unfold editorDelRow
  split_ifs with hrange
  · exact h
  · intro r hr
    exact h r (List.eraseIdx_subset _ _ hr)

theorem editorRowInsertChar_inv (s : EState) (idx : Nat) (at_ : Int) (c : Nat)
    (h : hlRenderInv s.rows) : hlRenderInv (editorRowInsertChar s idx at_ c).rows := by
  unfold editorRowInsertChar
  rcases hg : s.rows.get? idx with _ | r
  · exact h
  · dsimp only
    apply editorUpdateRowAt_inv
    intro r2 hr2
    rcases List.mem_or_eq_of_mem_set hr2 with hmem | rfl
    · exact h r2 hmem
    · rcases List.get?_eq_some.mp hg with ⟨hlt, hget⟩
      have hrm : r ∈ s.rows := by rw [← hget]; exact List.get_mem _ _ _
      exact h r hrm

theorem editorRowDelChar_inv (s : EState) (idx : Nat) (at_ : Int)
    (h : hlRenderInv s.rows) : hlRenderInv (editorRowDelChar s idx at_).rows := by
  unfold editorRowDelChar
  rcases hg : s.rows.get? idx with _ | r
  · exact h
  · dsimp only
    split_ifs with hrange
    · exact h
    · apply editorUpdateRowAt_inv
      intro r2 hr2
      rcases List.mem_or_eq_of_mem_set hr2 with hmem | rfl
      · exact h r2 hmem
      · rcases List.get?_eq_some.mp hg with ⟨hlt, hget⟩
        have hrm : r ∈ s.rows := by rw [← hget]; exact List.get_mem _ _ _
        exact h r hrm

theorem editorRowAppendString_inv (s : EState) (idx : Nat) (str : List Nat)
    (h : hlRenderInv s.rows) : hlRenderInv (editorRowAppendString s idx str).rows := by
  unfold editorRowAppendString
  rcases hg : s.rows.get? idx with _ | r
  · exact h
  · dsimp only
    apply editorUpdateRowAt_inv
    intro r2 hr2
    rcases List.mem_or_eq_of_mem_set hr2 with hmem | rfl
    · exact h r2 hmem
    · rcases List.get?_eq_some.mp hg with ⟨hlt, hget⟩
      have hrm : r ∈ s.rows := by rw [← hget]; exact List.get_mem _ _ _
      exact h r hrm

theorem editorOpenE_inv (syn : Option SynDef) (content : List Nat) :
    hlRenderInv (editorOpenE syn content).rows := by
  unfold editorOpenE
  dsimp only
  have hfold : ∀ (ls : List (List Nat)) (st : EState), hlRenderInv st.rows →
      hlRenderInv ((ls.foldl
        (fun st l => editorInsertRow st (st.rows.length : Int) (stripEol l)) st).rows) := by
    intro ls
    induction ls with
    | nil => intro st hst; exact hst
    | cons l ls ih =>
      intro st hst
      exact ih _ (editorInsertRow_inv _ _ _ hst)
  apply hfold
  intro r hr
  rw [show (default : EState).rows = [] from rfl] at hr
  exact absurd hr (List.not_mem_nil r)

/-- The search loop returns exactly the first index in its circular visiting
order whose render contains the query. -/
theorem findLoop_eq_find (renders : List (List Nat)) (query : List Nat) (dir : Int) :
    ∀ n current,
      findLoop renders query dir n current =
        (visitOrder renders.length dir n current).find?
          (fun idx => (strstrB (renders.getD idx []) query).isSome) := by
  intro n
  induction n with
  | zero => intro current; rfl
  | succ m ih =>
    intro current
    simp only [findLoop, visitOrder]
    by_cases hp : (strstrB (renders.getD
        (if current + dir = -1 then ((renders.length : Int) - 1)
         else if current + dir = (renders.length : Int) then 0
         else current + dir).toNat []) query).isSome = true
    · rw [if_pos hp]
      simp only [List.find?, hp]
    · rw [if_neg hp, ih]
      rw [Bool.not_eq_true] at hp
      simp only [List.find?, hp]

theorem moveCursorKey_rows (s : EState) (k : ArrowKey) :
    (moveCursorKey s k).rows = s.rows := by
  cases k <;> simp only [moveCursorKey] <;> (repeat' split) <;> rfl

theorem snapCursor_spec (t : EState) :
    (snapCursor t).rows = t.rows ∧ (snapCursor t).cy = t.cy ∧
    (snapCursor t).cx ≤ rowLenAt t.rows t.cy ∧
    (rowLenAt t.rows t.cy < t.cx → (snapCursor t).cx = rowLenAt t.rows t.cy) := by
  unfold snapCursor
  dsimp only
  split_ifs with hlt
  · exact ⟨rfl, rfl, le_refl _, fun _ => rfl⟩
  · exact ⟨rfl, rfl, by omega, fun hc => absurd hc hlt⟩

/-- C1: the spec says loading a file and saving without edits reproduces
every line in order with terminators normalized to a single trailing
newline each.  The code violates this: editorOpen (cactus.c line 673) calls
getline once and discards the result before its read loop, so the first
line of every file never becomes a row — loading the two-line file with
bytes "a", newline, "b", newline produces the single row "b", and saving
yields "b" plus newline instead of the original content.  This contradicts
the source's own comment "read entire file into E.row" (line 674). -/
theorem c1_first_line_dropped :
    (editorOpenE none [97, 10, 98, 10]).rows.map ERow.chars = [[98]] ∧
    editorRowsToString (editorOpenE none [97, 10, 98, 10]).rows = [98, 10] ∧
    editorRowsToString (editorOpenE none [97, 10, 98, 10]).rows ≠ [97, 10, 98, 10] := by
  refine ⟨by decide, by decide, by decide⟩

/-- C4: editorUpdateRow expands each tab to reach the next column that is a
multiple of CACTUS_TAB_STOP (8), always at least one space: a row holding a
single leading tab renders as exactly 8 spaces; one non-tab byte before the
tab makes the tab expand to 8 - (1 % 8) = 7 spaces; in general a trailing
tab appends 8 - (col % 8) spaces where col is the render length so far,
which is at least 1 space; and the render is never shorter than the raw
content. -/
theorem c4_tab_rendering :
    (renderFrom 0 [9] = List.replicate 8 32) ∧
    (∀ c, c ≠ 9 → renderFrom 0 [c, 9] = c :: List.replicate 7 32) ∧
    (∀ xs, renderFrom 0 (xs ++ [9]) =
      renderFrom 0 xs ++
        List.replicate (CACTUS_TAB_STOP - (renderFrom 0 xs).length % CACTUS_TAB_STOP) 32) ∧
    (∀ xs, 1 ≤ CACTUS_TAB_STOP - (renderFrom 0 xs).length % CACTUS_TAB_STOP) ∧
    (∀ xs, xs.length ≤ (renderFrom 0 xs).length) := by
  refine ⟨by decide, ?_, ?_, ?_, fun xs => renderFrom_length_ge xs 0⟩
  · intro c hc
    simp [renderFrom, hc, CACTUS_TAB_STOP]
  · intro xs
    rw [renderFrom_append]
    simp [renderFrom]
  · intro xs
    have : (renderFrom 0 xs).length % CACTUS_TAB_STOP < CACTUS_TAB_STOP :=
      Nat.mod_lt _ (by decide)
    omega

/-- Witness for C4 at a concrete input: a row "x" followed by a tab renders
as "x" and 7 spaces. -/
theorem c4_tab_rendering_witness :
    renderFrom 0 [120, 9] = 120 :: List.replicate 7 32 :=
  c4_tab_rendering.2.1 120 (by decide)

/-- C5: after editorScroll the cursor's (cy, rx) lies inside the viewport
rectangle (for any positive screen dimensions, with no exception needed even
on the virtual row past the last line), and in the concrete scenario of a
100-row buffer, viewport height 20 and cursor on row 50 starting from the
top, rowOff snaps to exactly 31 = 50 - 20 + 1. -/
theorem c5_viewport_snap :
    (∀ s : EState, 1 ≤ s.screenRows → 1 ≤ s.screenCols →
      (editorScroll s).rowOff ≤ (s.cy : Int) ∧
      (s.cy : Int) < (editorScroll s).rowOff + s.screenRows ∧
      (editorScroll s).colOff ≤ (editorScroll s).rx ∧
      (editorScroll s).rx < (editorScroll s).colOff + s.screenCols) ∧
    (editorScroll { (default : EState) with
        cy := 50, rows := List.replicate 100 default,
        screenRows := 20, screenCols := 80 }).rowOff = 31 := by
  constructor
  · intro s h1 h2
    unfold editorScroll
    dsimp only
    split_ifs <;> omega
  · decide

/-- Witness for C5: the containment guarantee applied at the scenario
state. -/
theorem c5_viewport_snap_witness :
    (editorScroll { (default : EState) with
        cy := 50, rows := List.replicate 100 default,
        screenRows := 20, screenCols := 80 }).rowOff ≤
      ((50 : Nat) : Int) :=
  (c5_viewport_snap.1 { (default : EState) with
      cy := 50, rows := List.replicate 100 default,
      screenRows := 20, screenCols := 80 } (by decide) (by decide)).1

/-- C6: the search scans rows in circular order starting one step past the
last match (wrapping -1 to the last row and numRows to row 0), stopping at
the first row whose render contains the query as a substring — the scan
equals the first match along the visiting order — and on rows "foo", "bar",
"foo" with query "foo", successive "next" searches visit row 0, then row 2,
then wrap back to row 0. -/
theorem c6_search_wrap :
    (∀ (renders : List (List Nat)) (query : List Nat) (lastMatch direction : Int),
      editorFindStep renders query lastMatch direction =
        (visitOrder renders.length (if lastMatch = -1 then 1 else direction)
            renders.length lastMatch).find?
          (fun idx => (strstrB (renders.getD idx []) query).isSome)) ∧
    editorFindStep [[102, 111, 111], [98, 97, 114], [102, 111, 111]]
      [102, 111, 111] (-1) 1 = some 0 ∧
    editorFindStep [[102, 111, 111], [98, 97, 114], [102, 111, 111]]
      [102, 111, 111] 0 1 = some 2 ∧
    editorFindStep [[102, 111, 111], [98, 97, 114], [102, 111, 111]]
      [102, 111, 111] 2 1 = some 0 := by
  refine ⟨?_, by decide, by decide, by decide⟩
  intro renders query lastMatch direction
  unfold editorFindStep
  exact findLoop_eq_find renders query _ renders.length lastMatch

/-- C7: with a dirty buffer, Ctrl-Q with a positive counter shows the
warning with the current count, decrements, and does not exit; any other
key resets the counter to CACTUS_QUIT_TIMES; CACTUS_QUIT_TIMES consecutive
Ctrl-Q presses from a fresh counter never exit, and one more press exits. -/
theorem c7_quit_gate :
    (∀ (dirty : Int) (qt : Nat), dirty ≠ 0 → 0 < qt →
      (editorProcessKeypressQ dirty qt .quit).exited = false ∧
      (editorProcessKeypressQ dirty qt .quit).quitTimes = qt - 1 ∧
      (editorProcessKeypressQ dirty qt .quit).statusCounter = some qt) ∧
    (∀ (dirty : Int) (qt : Nat),
      (editorProcessKeypressQ dirty qt .other).exited = false ∧
      (editorProcessKeypressQ dirty qt .other).quitTimes = CACTUS_QUIT_TIMES) ∧
    (∀ dirty : Int, dirty ≠ 0 →
      (runKeys dirty CACTUS_QUIT_TIMES (List.replicate CACTUS_QUIT_TIMES .quit)).2 = false ∧
      (runKeys dirty CACTUS_QUIT_TIMES
        (List.replicate (CACTUS_QUIT_TIMES + 1) .quit)).2 = true) := by
  refine ⟨?_, ?_, ?_⟩
  · intro dirty qt h1 h2
    unfold editorProcessKeypressQ
    rw [if_pos ⟨h1, h2⟩]
    exact ⟨rfl, rfl, rfl⟩
  · intro dirty qt
    exact ⟨rfl, rfl⟩
  · intro dirty h
    have hstep : ∀ qt : Nat, 0 < qt →
        editorProcessKeypressQ dirty qt .quit = ⟨false, qt - 1, some qt⟩ := by
      intro qt hq
      unfold editorProcessKeypressQ
      rw [if_pos ⟨h, hq⟩]
    have hexit : editorProcessKeypressQ dirty 0 .quit = ⟨true, 0, none⟩ := by
      unfold editorProcessKeypressQ
      rw [if_neg (by omega)]
    constructor
    · show (runKeys dirty 3 [.quit, .quit, .quit]).2 = false
      simp [runKeys, hstep 3 (by omega), hstep 2 (by omega), hstep 1 (by omega)]
    · show (runKeys dirty 3 [.quit, .quit, .quit, .quit]).2 = true
      simp [runKeys, hstep 3 (by omega), hstep 2 (by omega), hstep 1 (by omega), hexit]

/-- Witness for C7 with dirty = 1: one Ctrl-Q press shows counter 3 and
does not exit; four presses exit. -/
theorem c7_quit_gate_witness :
    (editorProcessKeypressQ 1 3 .quit).exited = false ∧
    (editorProcessKeypressQ 1 3 .quit).statusCounter = some 3 ∧
    (runKeys 1 CACTUS_QUIT_TIMES (List.replicate CACTUS_QUIT_TIMES .quit)).2 = false ∧
    (runKeys 1 CACTUS_QUIT_TIMES (List.replicate (CACTUS_QUIT_TIMES + 1) .quit)).2 = true :=
  ⟨(c7_quit_gate.1 1 3 (by decide) (by decide)).1,
   (c7_quit_gate.1 1 3 (by decide) (by decide)).2.2,
   (c7_quit_gate.2.2 1 (by decide)).1,
   (c7_quit_gate.2.2 1 (by decide)).2⟩

/-- C8: editorInsertRow with a position outside [0, numRows] and
editorDelRow with a position outside [0, numRows) leave the entire editor
state — rows, contents, dirty counter — unchanged, and return normally (the
operations are total; no error is produced). -/
theorem c8_out_of_range_noops :
    ∀ (s : EState) (at_ : Int) (str : List Nat),
      ((at_ < 0 ∨ (s.rows.length : Int) < at_) → editorInsertRow s at_ str = s) ∧
      ((at_ < 0 ∨ (s.rows.length : Int) ≤ at_) → editorDelRow s at_ = s) := by
  intro s at_ str
  constructor
  · intro h
    unfold editorInsertRow
    rw [if_pos h]
  · intro h
    unfold editorDelRow
    rw [if_pos h]

/-- Witness for C8 at position -1 on the empty default state. -/
theorem c8_out_of_range_noops_witness :
    editorInsertRow default (-1) [] = default ∧ editorDelRow default (-1) = default :=
  ⟨(c8_out_of_range_noops default (-1) []).1 (Or.inl (by decide)),
   (c8_out_of_range_noops default (-1) []).2 (Or.inl (by decide))⟩

/-- C9: for every row and raw column cx with 0 ≤ cx ≤ row size, converting
cx to a render column with editorRowCxToRx and back with editorRowRxToCx
returns cx unchanged. -/
theorem c9_cx_rx_roundtrip :
    ∀ (chars : List Nat) (cx : Nat), cx ≤ chars.length →
      editorRowRxToCx chars (editorRowCxToRx chars cx) = cx := by
  intro chars cx h
  unfold editorRowRxToCx editorRowCxToRx
  simpa using rx_roundtrip_aux chars cx 0 0 h

/-- Witness for C9 on the row "a", tab, "b" at cx = 2 (past the tab). -/
theorem c9_cx_rx_roundtrip_witness :
    editorRowRxToCx [97, 9, 98] (editorRowCxToRx [97, 9, 98] 2) = 2 :=
  c9_cx_rx_roundtrip [97, 9, 98] 2 (by decide)

/-- C10: after any editorMoveCursor call the cursor column is at most the
length of the row the cursor lands on (0 on the virtual row past the last
line), and a vertical move onto a shorter row snaps cx to exactly that
row's end. -/
theorem c10_cursor_clamp :
    ∀ (s : EState) (k : ArrowKey),
      (editorMoveCursor s k).cx ≤ rowLenAt s.rows (editorMoveCursor s k).cy ∧
      ((k = ArrowKey.up ∨ k = ArrowKey.down) →
        rowLenAt s.rows (editorMoveCursor s k).cy < s.cx →
        (editorMoveCursor s k).cx = rowLenAt s.rows (editorMoveCursor s k).cy) := by
  intro s k
  have hrows : (moveCursorKey s k).rows = s.rows := moveCursorKey_rows s k
  obtain ⟨h1, h2, h3, h4⟩ := snapCursor_spec (moveCursorKey s k)
  rw [hrows] at h3 h4
  constructor
  · show (snapCursor (moveCursorKey s k)).cx ≤
        rowLenAt s.rows (snapCursor (moveCursorKey s k)).cy
    rw [h2]
    exact h3
  · intro hk hlt
    unfold editorMoveCursor at hlt
    rw [h2] at hlt
    have hcx : (moveCursorKey s k).cx = s.cx := by
      rcases hk with rfl | rfl <;> simp only [moveCursorKey] <;> (repeat' split) <;> rfl
    show (snapCursor (moveCursorKey s k)).cx =
        rowLenAt s.rows (snapCursor (moveCursorKey s k)).cy
    rw [h2]
    apply h4
    rw [hcx]
    exact hlt

/-- Witness for C10: moving down from a 2-byte row with cx = 2 onto the
virtual row clamps cx to 0. -/
theorem c10_cursor_clamp_witness :
    (editorMoveCursor { (default : EState) with
        rows := [⟨[97, 98], [97, 98], [0, 0], false⟩], cx := 2 } ArrowKey.down).cx =
      rowLenAt [⟨[97, 98], [97, 98], [0, 0], false⟩]
        (editorMoveCursor { (default : EState) with
          rows := [⟨[97, 98], [97, 98], [0, 0], false⟩], cx := 2 } ArrowKey.down).cy :=
  (c10_cursor_clamp { (default : EState) with
      rows := [⟨[97, 98], [97, 98], [0, 0], false⟩], cx := 2 } ArrowKey.down).2
    (Or.inr rfl) (by decide)

theorem updateSyntaxAux_mstep (limit fuel : Nat) (rows : List ERow) (idx : Nat) (r : ERow)
    (sd : SynDef) (hg : rows.get? idx = some r) :
    updateSyntaxAux (some sd) limit (fuel + 1) rows idx =
      (let seed := decide (0 < idx) && (rows.getD (idx - 1) default).hl_open_comment
       let st := scanLoop sd r.render (r.render.length + 1) (initScan r.render.length seed)
       let rows2 := rows.set idx { r with hl := st.hl, hl_open_comment := st.inComment }
       if (r.hl_open_comment != st.inComment) = true ∧ idx + 1 < limit
       then updateSyntaxAux (some sd) limit fuel rows2 (idx + 1) else rows2) := by
  simp only [updateSyntaxAux, hg]

/-- C2: take any three consecutive rows loaded with closed comment flags
where row 1 opens a block comment (highlighting it alone with a closed seed
ends with the comment still open), row 2 contains no close delimiter (plain
text), and row 3 contains its first close delimiter at byte `p` and no open
delimiter after it.  Running editorUpdateSyntax on row 1 propagates through
the rows via the hl_open_comment change check (cactus.c lines 389-393):
every byte of row 2 and the prefix of row 3 up to the end of the close
delimiter are tagged HL_MULTI_LINE_COMMENT, and the resulting
hl_open_comment flags are true, true, false — row 1 and row 2 end still
inside the unterminated comment, row 3 does not.  That rows 2 and 3 are
re-highlighted at all by the single call on row 1 is exactly the claimed
flag-change recursion. -/
theorem c2_block_comment_propagation
    (r1 r2 r3 : ERow) (p : Nat)
    (hf1 : r1.hl_open_comment = false) (hf2 : r2.hl_open_comment = false)
    (hf3 : r3.hl_open_comment = false)
    (hopen : (scanLoop C_syndef r1.render (r1.render.length + 1)
        (initScan r1.render.length false)).inComment = true)
    (hplain : ∀ j, j < r2.render.length → matchAt r2.render j C_syndef.mce = false)
    (hclose : matchAt r3.render p C_syndef.mce = true)
    (hfirst : ∀ j, j < p → matchAt r3.render j C_syndef.mce = false)
    (hnoreopen : ∀ j, p + 2 ≤ j → j < r3.render.length →
        matchAt r3.render j C_syndef.mcs = false) :
    ((editorUpdateSyntaxAt (some C_syndef) 3 [r1, r2, r3] 0).getD 0
        default).hl_open_comment = true ∧
    ((editorUpdateSyntaxAt (some C_syndef) 3 [r1, r2, r3] 0).getD 1
        default).hl_open_comment = true ∧
    ((editorUpdateSyntaxAt (some C_syndef) 3 [r1, r2, r3] 0).getD 1
        default).hl.length = r2.render.length ∧
    (∀ j, j < r2.render.length →
      getB ((editorUpdateSyntaxAt (some C_syndef) 3 [r1, r2, r3] 0).getD 1 default).hl j =
        HL_MULTI_LINE_COMMENT) ∧
    ((editorUpdateSyntaxAt (some C_syndef) 3 [r1, r2, r3] 0).getD 2
        default).hl_open_comment = false ∧
    (∀ j, j < p + 2 →
      getB ((editorUpdateSyntaxAt (some C_syndef) 3 [r1, r2, r3] 0).getD 2 default).hl j =
        HL_MULTI_LINE_COMMENT) := by
  have hplain' : ∀ j, matchAt r2.render j C_syndef.mce = false := by
    intro j
    rcases lt_or_le j r2.render.length with hj | hj
    · exact hplain j hj
    · exact matchAt_mce_out _ _ hj
  have hnoreopen' : ∀ j, p + 2 ≤ j → matchAt r3.render j C_syndef.mcs = false := by
    intro j hj
    rcases lt_or_le j r3.render.length with hj2 | hj2
    · exact hnoreopen j hj hj2
    · exact matchAt_mcs_out _ _ hj2
  obtain ⟨h2flag, h2hl⟩ := scan_comment_run r2.render (r2.render.length + 1)
    (initScan r2.render.length true) rfl rfl (by simp [initScan])
    (fun j _ => hplain' j) (by simp only [initScan]; omega)
  obtain ⟨fuel2, hl2, heq3, hlen2, hmid3, hpres3, hfb3⟩ := scan_close_run r3.render
    (r3.render.length + 1) (initScan r3.render.length true) p rfl rfl (by simp [initScan])
    (Nat.zero_le p) hclose (fun j _ hj => hfirst j hj) (by simp only [initScan]; omega)
  have h3flag : (scanLoop C_syndef r3.render (r3.render.length + 1)
      (initScan r3.render.length true)).inComment = false := by
    rw [heq3]
    exact scan_no_open r3.render fuel2 ⟨hl2, p + 2, true, 0, false⟩ rfl
      (fun j hj => hnoreopen' j hj)
  have h3hl : ∀ j, j < p + 2 →
      getB (scanLoop C_syndef r3.render (r3.render.length + 1)
        (initScan r3.render.length true)).hl j = HL_MULTI_LINE_COMMENT := by
    intro j hj
    rw [heq3, scanLoop_no_write_below C_syndef r3.render fuel2 _ j hj]
    exact hmid3 j (Nat.zero_le j) hj
  refine ⟨?_, ?_, ?_, ?_, ?_, ?_⟩
  · simp [editorUpdateSyntaxAt, updateSyntaxAux, hf1, hf2, hf3, hopen, h2flag, h3flag]
  · simp [editorUpdateSyntaxAt, updateSyntaxAux, hf1, hf2, hf3, hopen, h2flag, h3flag]
  · have hlen : (scanLoop C_syndef r2.render (r2.render.length + 1)
        (initScan r2.render.length true)).hl.length = r2.render.length := by
      rw [scanLoop_hl_length]
      simp [initScan]
    simp [editorUpdateSyntaxAt, updateSyntaxAux, hf1, hf2, hf3, hopen, h2flag, h3flag, hlen]
  · simp only [editorUpdateSyntaxAt, updateSyntaxAux]
    simp [hf1, hf2, hf3, hopen, h2flag, h3flag]
    exact fun j hj => h2hl j (Nat.zero_le j) hj
  · simp [editorUpdateSyntaxAt, updateSyntaxAux, hf1, hf2, hf3, hopen, h2flag, h3flag]
  · simp only [editorUpdateSyntaxAt, updateSyntaxAux]
    simp [hf1, hf2, hf3, hopen, h2flag, h3flag]
    exact fun j hj => h3hl j hj

/-- Witness for C2 on the rows "slash-star space a", "hi",
"x space star-slash space y" (close delimiter at byte 2). -/
theorem c2_block_comment_propagation_witness :
    ((editorUpdateSyntaxAt (some C_syndef) 3
        [⟨[47, 42, 32, 97], [47, 42, 32, 97], [], false⟩,
         ⟨[104, 105], [104, 105], [], false⟩,
         ⟨[120, 32, 42, 47, 32, 121], [120, 32, 42, 47, 32, 121], [], false⟩] 0).getD 1
        default).hl_open_comment = true ∧
    ((editorUpdateSyntaxAt (some C_syndef) 3
        [⟨[47, 42, 32, 97], [47, 42, 32, 97], [], false⟩,
         ⟨[104, 105], [104, 105], [], false⟩,
         ⟨[120, 32, 42, 47, 32, 121], [120, 32, 42, 47, 32, 121], [], false⟩] 0).getD 2
        default).hl_open_comment = false :=
  ⟨(c2_block_comment_propagation
      ⟨[47, 42, 32, 97], [47, 42, 32, 97], [], false⟩
      ⟨[104, 105], [104, 105], [], false⟩
      ⟨[120, 32, 42, 47, 32, 121], [120, 32, 42, 47, 32, 121], [], false⟩ 2
      rfl rfl rfl (by decide) (by decide) (by decide) (by decide)
      (by intro j h1 h2; have h3 : j < 6 := by simpa using h2
          interval_cases j <;> decide)).2.1,
   (c2_block_comment_propagation
      ⟨[47, 42, 32, 97], [47, 42, 32, 97], [], false⟩
      ⟨[104, 105], [104, 105], [], false⟩
      ⟨[120, 32, 42, 47, 32, 121], [120, 32, 42, 47, 32, 121], [], false⟩ 2
      rfl rfl rfl (by decide) (by decide) (by decide) (by decide)
      (by intro j h1 h2; have h3 : j < 6 := by simpa using h2
          interval_cases j <;> decide)).2.2.2.2.1⟩

/-- C3: every operation that loads, edits, re-renders or re-highlights rows
preserves (or establishes) the invariant that each row's highlight array
has exactly the length of its render array — editorUpdateSyntax rebuilds
the highlight array at the render's size (cactus.c lines 279-281), and
every mutation reaches it through editorUpdateRow. -/
theorem c3_hl_render_length :
    (∀ (syn : Option SynDef) (limit : Nat) (rows : List ERow) (idx : Nat),
      hlRenderInv rows → hlRenderInv (editorUpdateSyntaxAt syn limit rows idx)) ∧
    (∀ (syn : Option SynDef) (limit : Nat) (rows : List ERow) (idx : Nat),
      hlRenderInv rows → hlRenderInv (editorUpdateRowAt syn limit rows idx)) ∧
    (∀ (s : EState) (at_ : Int) (str : List Nat),
      hlRenderInv s.rows → hlRenderInv (editorInsertRow s at_ str).rows) ∧
    (∀ (s : EState) (at_ : Int),
      hlRenderInv s.rows → hlRenderInv (editorDelRow s at_).rows) ∧
    (∀ (s : EState) (idx : Nat) (at_ : Int) (c : Nat),
      hlRenderInv s.rows → hlRenderInv (editorRowInsertChar s idx at_ c).rows) ∧
    (∀ (s : EState) (idx : Nat) (at_ : Int),
      hlRenderInv s.rows → hlRenderInv (editorRowDelChar s idx at_).rows) ∧
    (∀ (s : EState) (idx : Nat) (str : List Nat),
      hlRenderInv s.rows → hlRenderInv (editorRowAppendString s idx str).rows) ∧
    (∀ (syn : Option SynDef) (content : List Nat),
      hlRenderInv (editorOpenE syn content).rows) :=
  ⟨editorUpdateSyntaxAt_inv, editorUpdateRowAt_inv, editorInsertRow_inv, editorDelRow_inv,
   editorRowInsertChar_inv, editorRowDelChar_inv, editorRowAppendString_inv, editorOpenE_inv⟩

/-- Witness for C3: inserting the row "if" into an empty C-highlighted
buffer keeps every highlight array at its render's length. -/
theorem c3_hl_render_length_witness :
    hlRenderInv (editorInsertRow { (default : EState) with syn := some C_syndef }
      0 [105, 102]).rows :=
  c3_hl_render_length.2.2.1 { (default : EState) with syn := some C_syndef } 0 [105, 102]
    (by decide)
